import Mathlib

/-!
Shallow embedding of the inference-engine wrapper `score.py` produced by
`utilities/video-analysis/notebooks/resnet/resnet50/resnet50-http-icpu-onnx/
create_resnet50_icpu_inference_engine.ipynb` (the `MLModel` class), together
with theorems settling the behavioural claims about it.

Modelling conventions:
- numpy float32 values are modelled as rationals (`ℚ`);
- a Python function whose body is wrapped in `try: ... except: PrintGetExceptionDetails()`
  (which logs and falls through, so the function returns `None` on any exception)
  is modelled as an `Option`-valued function, `none` standing for the `None`
  produced by the swallowed exception;
- `np.sort` sorts ascending; `np.argsort` is modelled as the stable ascending
  argsort (a stable argsort is exactly the sort of the index/value pairs by
  the lexicographic order on (value, index)).  numpy's default quicksort is
  stable only below its small-array insertion-sort threshold (about 16
  elements) and leaves the tie order unspecified above it, so statements that
  depend on the tie order carry an explicit length bound restricting them to
  the stable regime; tie-free or tie-order-invariant statements are faithful
  at any length.  `[::-1]` is `List.reverse`;
- the onnxruntime session is opaque: `Score` is parameterised by the function
  `onnxRun` standing for `self._onnxSession.run`, and the loaded label file is
  the list `labelList` standing for `self._labelList`.
-/

namespace ScorePy

/-- A line of the label file `synset.txt`, as a list of characters. -/
abbrev Label := List Char

/-- Split a character list at the first occurrence of a space: the model of
Python `s.split(' ', 1)`, returning the two parts when a space occurs and
`none` otherwise (in which case `split(' ', 1)[1]` raises `IndexError`). -/
def splitFirstSpace : List Char → Option (List Char × List Char)
  | [] => none
  | c :: cs =>
    if c = ' ' then some ([], cs)
    else (splitFirstSpace cs).map fun p => (c :: p.1, p.2)

/-- Model of `obj.split(' ', 1)[1]` from `MLModel.Postprocess`: the part of a
label line after the first space, or `none` when the line has no space. -/
def objNameOf (obj : Label) : Option Label :=
  (splitFirstSpace obj).map Prod.snd

/-- Model of `np.sort(probabilities)` (ascending sort of the values). -/
def np_sort (p : List ℚ) : List ℚ := List.insertionSort (· ≤ ·) p

/-- The comparison under which a stable ascending argsort orders the
(index, value) pairs: by value, ties by original index. -/
def argLe (a b : ℕ × ℚ) : Prop := a.2 < b.2 ∨ (a.2 = b.2 ∧ a.1 ≤ b.1)

instance : DecidableRel argLe := fun a b => by
  unfold argLe; infer_instance

/-- Model of `np.argsort(probabilities)`: the indices of the vector ordered so
that the values are ascending, ties keeping the original index order.  This is
numpy's behaviour in its stable regime: the default quicksort falls back to
insertion sort, which is stable, below its small-array threshold (about 16
elements); above that threshold numpy documents the tie order as unspecified,
so only tie-free or tie-order-invariant statements about this model, and
tie-order statements explicitly bounded to the stable regime, transfer to the
source. -/
def np_argsort (p : List ℚ) : List ℕ :=
  (List.insertionSort argLe p.enum).map Prod.fst

/-- One entry of the list returned by `MLModel.Postprocess`: the dictionary
`{"type": "classification", "classification": {"tag": {"value": obj_name,
"confidence": confidence}}}`, flattened to its three data fields. -/
structure DetectedObject where
  type : List Char
  value : List Char
  confidence : ℚ

/-- The body of one iteration of the `for i in range(3)` loop of
`MLModel.Postprocess`: read `sorted_prob[i]` and `sorted_indices[i]`, look the
index up in the label list, drop the first word of the label line, and build
the result dictionary with `confidence = sorted_prob[i]/100`.  Any failing
lookup is an `IndexError`, swallowed by the enclosing `except`, hence `none`. -/
def mkDetected (labelList : List Label) (sorted_prob : List ℚ)
    (sorted_indices : List ℕ) (i : ℕ) : Option DetectedObject := do
  let c ← sorted_prob.get? i
  let idx ← sorted_indices.get? i
  let obj ← labelList.get? idx
  let name ← objNameOf obj
  return ⟨"classification".toList, name, c / 100⟩

/-- Model of `MLModel.Postprocess`: sort the probabilities descending
(ascending sort, then `[::-1]`), argsort them descending likewise, and emit
the top three results; `none` models the `None` returned after any swallowed
exception. -/
def Postprocess (labelList : List Label) (probabilities : List ℚ) :
    Option (List DetectedObject) := do
  let sorted_prob := (np_sort probabilities).reverse
  let sorted_indices := (np_argsort probabilities).reverse
  let o0 ← mkDetected labelList sorted_prob sorted_indices 0
  let o1 ← mkDetected labelList sorted_prob sorted_indices 1
  let o2 ← mkDetected labelList sorted_prob sorted_indices 2
  return [o0, o1, o2]

/-- An h×w BGR image with 8-bit samples: the `cvImage` argument of
`MLModel.Preprocess` (a numpy array of shape (h, w, 3) of unsigned bytes,
indexed row, column, channel). -/
def Image (h w : ℕ) : Type := Fin h → Fin w → Fin 3 → ℕ

/-- An h×w×3 array of floats in HWC layout. -/
def HWCTensor (h w : ℕ) : Type := Fin h → Fin w → Fin 3 → ℚ

/-- A 3×h×w array of floats in CHW layout. -/
def CHWTensor (h w : ℕ) : Type := Fin 3 → Fin h → Fin w → ℚ

/-- A (1, 3, h, w) float tensor: the `imageBlob` handed to the onnx session. -/
def Tensor (h w : ℕ) : Type := Fin 1 → Fin 3 → Fin h → Fin w → ℚ

/-- The channel permutation of `cv2.cvtColor(cvImage, cv2.COLOR_BGR2RGB)`:
output channel c (R,G,B order) is input channel 2-c (B,G,R order). -/
def bgr2rgbSource : Fin 3 → Fin 3
  | 0 => 2
  | 1 => 1
  | 2 => 0

/-- Model of `cv2.cvtColor(cvImage, cv2.COLOR_BGR2RGB)`. -/
def cvtColor_BGR2RGB {h w : ℕ} (img : Image h w) : Image h w :=
  fun y x c => img y x (bgr2rgbSource c)

/-- Model of `np.array(imageBlob, dtype='float32')`. -/
def astype_float32 {h w : ℕ} (img : Image h w) : HWCTensor h w :=
  fun y x c => (img y x c : ℚ)

/-- Model of `imageBlob /= 255.`. -/
def divideBy255 {h w : ℕ} (t : HWCTensor h w) : HWCTensor h w :=
  fun y x c => t y x c / 255

/-- Model of `np.transpose(imageBlob, [2, 0, 1])` (HWC to CHW). -/
def transpose201 {h w : ℕ} (t : HWCTensor h w) : CHWTensor h w :=
  fun c y x => t y x c

/-- Model of `np.expand_dims(imageBlob, 0)` (prepend a batch axis of size 1). -/
def expand_dims0 {h w : ℕ} (t : CHWTensor h w) : Tensor h w :=
  fun _ c y x => t c y x

/-- Model of `MLModel.Preprocess`: colour conversion, float cast, division by
255, transpose to CHW, batch axis — in the order of the source. The function
is total in h and w: the source performs no dimension check whatsoever. -/
def Preprocess {h w : ℕ} (cvImage : Image h w) : Tensor h w :=
  expand_dims0 (transpose201 (divideBy255 (astype_float32 (cvtColor_BGR2RGB cvImage))))

/-- Model of `MLModel.Score`: preprocess, run the (opaque) onnx session, then
postprocess; `none` stands for the `None` returned after the `except` clause
swallows an exception of any stage (the session's lock is not modelled: the
call sequence within one request is unchanged by it). -/
def Score {h w : ℕ} (labelList : List Label) (onnxRun : Tensor h w → Option (List ℚ))
    (cvImage : Image h w) : Option (List DetectedObject) := do
  let imageBlob := Preprocess cvImage
  let probabilities ← onnxRun imageBlob
  Postprocess labelList probabilities

/-- The position ("rank") at which `Postprocess` ranks index i of the
probability vector p: its position in the reversed argsort. -/
def rankOf (p : List ℚ) (i : ℕ) : ℕ := (np_argsort p).reverse.indexOf i

/-- A 224×224 all-black test image. -/
def img224 : Image 224 224 := fun _ _ _ => 0

/-- A 100×100 test image (all samples 7). -/
def img100 : Image 100 100 := fun _ _ _ => 7

/-- A three-line label table in the format of `synset.txt`. -/
def labelsABC : List Label := ["0 a".toList, "1 b".toList, "2 c".toList]

/-- A session stub whose raw output contains the score 200. -/
def run200 : Tensor 224 224 → Option (List ℚ) := fun _ => some [200, 1, 2]

/-- A session stub with scores on the percentage scale 0–100. -/
def run3 : Tensor 224 224 → Option (List ℚ) := fun _ => some [10, 50, 40]

/-- A session stub that fails on every input, as onnxruntime does when the
tensor shape does not match the model's declared input shape. -/
def rejectRun : Tensor 100 100 → Option (List ℚ) := fun _ => none

instance : IsTotal (ℕ × ℚ) argLe := ⟨fun a b => by
  rcases lt_trichotomy a.2 b.2 with h | h | h
  · exact Or.inl (Or.inl h)
  · rcases le_total a.1 b.1 with h1 | h1
    · exact Or.inl (Or.inr ⟨h, h1⟩)
    · exact Or.inr (Or.inr ⟨h.symm, h1⟩)
  · exact Or.inr (Or.inl h)⟩

instance : IsTrans (ℕ × ℚ) argLe := ⟨fun a b c hab hbc => by
  rcases hab with h | ⟨he, hn⟩
  · rcases hbc with h2 | ⟨he2, _⟩
    · exact Or.inl (h.trans h2)
    · exact Or.inl (he2 ▸ h)
  · rcases hbc with h2 | ⟨he2, hn2⟩
    · exact Or.inl (he ▸ h2)
    · exact Or.inr ⟨he.trans he2, hn.trans hn2⟩⟩

theorem argLe_snd_le {a b : ℕ × ℚ} (h : argLe a b) : a.2 ≤ b.2 := by
  rcases h with h | ⟨h, _⟩
  · exact le_of_lt h
  · exact le_of_eq h

/-- Projecting the stable argsort's (index, value) pairs to their values gives
exactly the sorted value list: `np.sort` and `np.argsort` agree. -/
theorem snd_sortedPairs (p : List ℚ) :
    (List.insertionSort argLe p.enum).map Prod.snd = np_sort p := by
  haveI : IsAntisymm ℚ (fun a b => a ≤ b) := ⟨fun _ _ => le_antisymm⟩
  refine List.eq_of_perm_of_sorted (r := (· ≤ ·)) ?_ ?_ ?_
  · exact ((List.perm_insertionSort argLe p.enum).map _).trans
      (by rw [List.enum_map_snd]; exact (List.perm_insertionSort _ p).symm)
  · exact List.Pairwise.map _ (fun a b => argLe_snd_le)
      (List.sorted_insertionSort argLe p.enum)
  · exact List.sorted_insertionSort _ p

/-- Every pair of the sorted (index, value) list records a value of p at its
recorded index. -/
theorem mem_sortedPairs {p : List ℚ} {x : ℕ × ℚ}
    (hx : x ∈ List.insertionSort argLe p.enum) : p.get? x.1 = some x.2 := by
  have hx' : x ∈ p.enum := (List.perm_insertionSort argLe p.enum).mem_iff.mp hx
  rw [List.get?_eq_getElem?]
  exact List.mem_enum_iff_getElem?.mp hx'

/-- `np_argsort` is a permutation of the index range. -/
theorem np_argsort_perm_range (p : List ℚ) :
    (np_argsort p).Perm (List.range p.length) := by
  have h1 : (np_argsort p).Perm (p.enum.map Prod.fst) :=
    (List.perm_insertionSort argLe p.enum).map _
  rwa [List.enum_map_fst] at h1

/-- Alignment of `sorted_prob` and `sorted_indices` in `Postprocess`: at every
position k, the reversed sorted value list holds exactly the probability stored
at the index found at position k of the reversed argsort. -/
theorem argsort_sort_aligned (p : List ℚ) (k : ℕ) {j : ℕ}
    (hj : (np_argsort p).reverse.get? k = some j) :
    ∃ c, p.get? j = some c ∧ ((np_sort p).reverse).get? k = some c := by
  rw [np_argsort, ← List.map_reverse, List.get?_map] at hj
  obtain ⟨x, hx, hx1⟩ := Option.map_eq_some'.mp hj
  have hmem : x ∈ (List.insertionSort argLe p.enum).reverse := List.get?_mem hx
  rw [List.mem_reverse] at hmem
  have hpx := mem_sortedPairs hmem
  refine ⟨x.2, hx1 ▸ hpx, ?_⟩
  rw [← snd_sortedPairs, ← List.map_reverse, List.get?_map, hx]
  rfl

/-- The reversed sorted value list of `Postprocess` is non-increasing. -/
theorem pairwise_ge_sorted_prob (p : List ℚ) :
    ((np_sort p).reverse).Pairwise (fun a b => b ≤ a) :=
  List.pairwise_reverse.mpr (List.sorted_insertionSort _ p)

/-- In a non-increasing list, a later entry is at most an earlier one. -/
theorem get?_le_of_pairwise_ge {l : List ℚ} (hl : l.Pairwise (fun a b => b ≤ a))
    {i j : ℕ} {ci cj : ℚ} (hij : i < j) (hi : l.get? i = some ci)
    (hj : l.get? j = some cj) : cj ≤ ci := by
  obtain ⟨hi', hig⟩ := List.get?_eq_some.mp hi
  obtain ⟨hj', hjg⟩ := List.get?_eq_some.mp hj
  have h := List.pairwise_iff_get.mp hl ⟨i, hi'⟩ ⟨j, hj'⟩ (Fin.mk_lt_mk.mpr hij)
  rw [hig, hjg] at h
  exact h

/-- The reversed sorted value list is a permutation of the raw vector. -/
theorem sorted_prob_perm (p : List ℚ) : ((np_sort p).reverse).Perm p :=
  (List.reverse_perm _).trans (List.perm_insertionSort _ p)

/-- Dissection of a successful `mkDetected`: the lookups it performs and the
shape of the record it builds. -/
theorem mkDetected_eq_some {labelList : List Label} {sp : List ℚ} {si : List ℕ}
    {i : ℕ} {o : DetectedObject} (h : mkDetected labelList sp si i = some o) :
    ∃ c idx obj name, sp.get? i = some c ∧ si.get? i = some idx ∧
      labelList.get? idx = some obj ∧ objNameOf obj = some name ∧
      o = ⟨"classification".toList, name, c / 100⟩ := by
  unfold mkDetected at h
  rw [Option.bind_eq_bind, Option.bind_eq_some] at h
  obtain ⟨c, hc, h⟩ := h
  rw [Option.bind_eq_bind, Option.bind_eq_some] at h
  obtain ⟨idx, hidx, h⟩ := h
  rw [Option.bind_eq_bind, Option.bind_eq_some] at h
  obtain ⟨obj, hobj, h⟩ := h
  rw [Option.bind_eq_some] at h
  obtain ⟨name, hname, h⟩ := h
  rw [Option.pure_def] at h
  exact ⟨c, idx, obj, name, hc, hidx, hobj, hname, (Option.some_inj.mp h).symm⟩

/-- Dissection of a successful `Postprocess`: it returns exactly the three
records built by the loop iterations i = 0, 1, 2. -/
theorem Postprocess_eq_some {labelList : List Label} {p : List ℚ}
    {res : List DetectedObject} (h : Postprocess labelList p = some res) :
    ∃ o0 o1 o2,
      mkDetected labelList ((np_sort p).reverse) ((np_argsort p).reverse) 0 = some o0 ∧
      mkDetected labelList ((np_sort p).reverse) ((np_argsort p).reverse) 1 = some o1 ∧
      mkDetected labelList ((np_sort p).reverse) ((np_argsort p).reverse) 2 = some o2 ∧
      res = [o0, o1, o2] := by
  unfold Postprocess at h
  rw [Option.bind_eq_bind, Option.bind_eq_some] at h
  obtain ⟨o0, h0, h⟩ := h
  rw [Option.bind_eq_some] at h
  obtain ⟨o1, h1, h⟩ := h
  rw [Option.bind_eq_some] at h
  obtain ⟨o2, h2, h⟩ := h
  rw [Option.pure_def] at h
  exact ⟨o0, o1, o2, h0, h1, h2, (Option.some_inj.mp h).symm⟩

/-- Positions of the reversed argsort, as an Option-valued projection of the
sorted pair list. -/
theorem argsort_rev_get? (p : List ℚ) (n : ℕ) :
    (np_argsort p).reverse.get? n =
      ((List.insertionSort argLe p.enum).reverse.get? n).map Prod.fst := by
  rw [np_argsort, ← List.map_reverse, List.get?_map]

/-- C1: on the probability vector [0.1, 92.0, 0.05, 4.0, 3.0] with the label
table ["0 cat", "1 dog", "2 bird", "3 fish", "4 mouse"], Postprocess (which
ranks the top k = 3) returns exactly ("dog", 0.92), ("fish", 0.04),
("mouse", 0.03) in that order: positions 0, 1, 2 of the returned list are the
ranks 0, 1, 2 of the claim. -/
theorem C1_rank_example :
    Postprocess ["0 cat".toList, "1 dog".toList, "2 bird".toList,
                 "3 fish".toList, "4 mouse".toList]
      [0.1, 92.0, 0.05, 4.0, 3.0] =
    some [⟨"classification".toList, "dog".toList, 0.92⟩,
          ⟨"classification".toList, "fish".toList, 0.04⟩,
          ⟨"classification".toList, "mouse".toList, 0.03⟩] := by
  norm_num [Postprocess, np_sort, np_argsort, mkDetected, objNameOf,
    splitFirstSpace, List.insertionSort, List.orderedInsert, argLe]
  rfl

/-- C2 (counterexample): on the vector [5, 5, 1] the probabilities at indices
0 < 1 are equal, yet Postprocess ranks index 1 strictly before index 0 — the
claimed tie-break (lower index wins) does not hold. -/
theorem C2_counterexample :
    [(5:ℚ), 5, 1].get? 0 = [(5:ℚ), 5, 1].get? 1 ∧
    rankOf [(5:ℚ), 5, 1] 1 < rankOf [(5:ℚ), 5, 1] 0 := by
  constructor
  · rfl
  · show (0:ℕ) < 1
    norm_num

/-- C2 (amended): for probability vectors inside numpy's stable-argsort regime
(at most 16 elements, below the insertion-sort threshold), ties are broken by
descending original index: with equal values at indices i < j, Postprocess
ranks index j strictly before index i, because the stable ascending argsort
keeps ties in index order and the subsequent [::-1] reversal flips them.
Above that threshold np.argsort's default quicksort leaves the tie order
unspecified, so no tie-break rule — in particular not the claimed
lower-index-wins rule — holds there. -/
theorem C2_tie_higher_index_first (p : List ℚ) (i j : ℕ) (hij : i < j)
    (hj : j < p.length) (_hlen : p.length ≤ 16)
    (heq : p.get ⟨i, hij.trans hj⟩ = p.get ⟨j, hj⟩) :
    rankOf p j < rankOf p i := by
  have hi : i < p.length := hij.trans hj
  have hperm : (np_argsort p).reverse.Perm (List.range p.length) :=
    (List.reverse_perm _).trans (np_argsort_perm_range p)
  have hmi : i ∈ (np_argsort p).reverse := hperm.mem_iff.mpr (List.mem_range.mpr hi)
  have hmj : j ∈ (np_argsort p).reverse := hperm.mem_iff.mpr (List.mem_range.mpr hj)
  have hbi : (np_argsort p).reverse.indexOf i < (np_argsort p).reverse.length :=
    List.indexOf_lt_length.mpr hmi
  have hbj : (np_argsort p).reverse.indexOf j < (np_argsort p).reverse.length :=
    List.indexOf_lt_length.mpr hmj
  have hgi : (np_argsort p).reverse.get? ((np_argsort p).reverse.indexOf i) = some i := by
    rw [List.get?_eq_get hbi]
    exact congrArg some (List.indexOf_get hbi)
  have hgj : (np_argsort p).reverse.get? ((np_argsort p).reverse.indexOf j) = some j := by
    rw [List.get?_eq_get hbj]
    exact congrArg some (List.indexOf_get hbj)
  rw [argsort_rev_get?] at hgi hgj
  obtain ⟨xi, hxi, hxi1⟩ := Option.map_eq_some'.mp hgi
  obtain ⟨xj, hxj, hxj1⟩ := Option.map_eq_some'.mp hgj
  have hvi : p.get? xi.1 = some xi.2 :=
    mem_sortedPairs (List.mem_reverse.mp (List.get?_mem hxi))
  have hvj : p.get? xj.1 = some xj.2 :=
    mem_sortedPairs (List.mem_reverse.mp (List.get?_mem hxj))
  have hv_i : xi.2 = p.get ⟨i, hi⟩ := by
    rw [hxi1, List.get?_eq_get hi] at hvi
    exact (Option.some_inj.mp hvi).symm
  have hv_j : xj.2 = p.get ⟨j, hj⟩ := by
    rw [hxj1, List.get?_eq_get hj] at hvj
    exact (Option.some_inj.mp hvj).symm
  have hsorted : (List.insertionSort argLe p.enum).reverse.Pairwise (fun a b => argLe b a) :=
    List.pairwise_reverse.mpr (List.sorted_insertionSort argLe p.enum)
  unfold rankOf
  by_contra hcon
  push_neg at hcon
  have hne : (np_argsort p).reverse.indexOf i ≠ (np_argsort p).reverse.indexOf j := by
    intro he
    rw [he] at hxi
    have hxx : xi = xj := Option.some_inj.mp (hxi.symm.trans hxj)
    exact Nat.ne_of_lt hij (by rw [← hxi1, ← hxj1, hxx])
  have hlt : (np_argsort p).reverse.indexOf i < (np_argsort p).reverse.indexOf j :=
    lt_of_le_of_ne hcon hne
  obtain ⟨hli, hgeti⟩ := List.get?_eq_some.mp hxi
  obtain ⟨hlj, hgetj⟩ := List.get?_eq_some.mp hxj
  have hrel := List.pairwise_iff_get.mp hsorted ⟨_, hli⟩ ⟨_, hlj⟩ (Fin.mk_lt_mk.mpr hlt)
  rw [hgeti, hgetj] at hrel
  rcases hrel with hlt2 | ⟨_, hle2⟩
  · rw [hv_i, hv_j, heq] at hlt2
    exact lt_irrefl _ hlt2
  · rw [hxi1, hxj1] at hle2
    exact absurd hle2 (Nat.not_le.mpr hij)

/-- C2 (witness): the amended tie-break at the concrete vector [5, 5, 2]
(length 3, inside the stable regime), indices 0 < 1 with equal values:
index 1 is ranked before index 0. -/
theorem C2_witness : rankOf [(5:ℚ), 5, 2] 1 < rankOf [(5:ℚ), 5, 2] 0 :=
  C2_tie_higher_index_first [(5:ℚ), 5, 2] 0 1 (by norm_num) (by norm_num)
    (by norm_num) rfl

/-- C4: for a 224×224×3 input with 8-bit samples, Preprocess reorders B,G,R to
R,G,B (output channel c reads input channel 2-c), casts to rationals, divides
by 255, transposes HWC to CHW and prepends a batch axis of size 1 — the
resulting (1, 3, 224, 224) tensor holds, at (0, c, y, x), the value
image[y][x][2-c]/255, which lies in [0, 1]. -/
theorem C4_preprocess_pipeline (img : Image 224 224)
    (hb : ∀ y x c, img y x c ≤ 255) :
    (∀ c : Fin 3, (bgr2rgbSource c : ℕ) = 2 - (c : ℕ)) ∧
    ∀ (b : Fin 1) (c : Fin 3) (y x : Fin 224),
      Preprocess img b c y x = (img y x (bgr2rgbSource c) : ℚ) / 255 ∧
      0 ≤ Preprocess img b c y x ∧ Preprocess img b c y x ≤ 1 := by
  refine ⟨by decide, fun b c y x => ⟨rfl, ?_, ?_⟩⟩
  · show (0:ℚ) ≤ (img y x (bgr2rgbSource c) : ℚ) / 255
    positivity
  · show (img y x (bgr2rgbSource c) : ℚ) / 255 ≤ 1
    rw [div_le_one (by norm_num)]
    exact_mod_cast hb y x (bgr2rgbSource c)

/-- A 224×224 half-grey test image. -/
def img128 : Image 224 224 := fun _ _ _ => 128

/-- C4 (witness): the pipeline characterisation evaluated on the constant
image of sample value 128, at batch 0, channel 0, pixel (0, 0). -/
theorem C4_witness :
    0 ≤ Preprocess img128 0 0 0 0 ∧ Preprocess img128 0 0 0 0 ≤ 1 :=
  ⟨((C4_preprocess_pipeline img128 (fun _ _ _ => by norm_num [img128])).2 0 0 0 0).2.1,
   ((C4_preprocess_pipeline img128 (fun _ _ _ => by norm_num [img128])).2 0 0 0 0).2.2⟩

/-- C5: for every label line of the shape token-space-remainder, where the
first token holds no space, the lookup keeps exactly the part after the first
space, however many further tokens the remainder holds. -/
theorem C5_label_after_first_space (t r : List Char) (ht : ' ' ∉ t) :
    objNameOf (t ++ ' ' :: r) = some r := by
  induction t with
  | nil => rfl
  | cons c cs ih =>
    have hc : ¬(c = ' ') := fun hcc => ht (by rw [hcc]; exact List.mem_cons_self _ _)
    have ih' := ih fun hmem => ht (List.mem_cons_of_mem c hmem)
    unfold objNameOf at ih' ⊢
    simp only [List.cons_append, splitFirstSpace, if_neg hc, Option.map_map]
    exact ih'

/-- C5 (witness): the line "9 n02119789 fox" resolves to "n02119789 fox". -/
theorem C5_witness :
    objNameOf ("9 n02119789 fox".toList) = some ("n02119789 fox".toList) :=
  C5_label_after_first_space ("9".toList) ("n02119789 fox".toList) (by decide)

/-- C6: contrary to the claim, Score does not return a typed error carrying
the failing stage: when the inference stage fails (the session returns no
result) or the postprocessing stage fails (here: a two-element probability
vector, whose index 2 lookup raises), the swallowed exception makes Score
return None — the failure is silently discarded. -/
theorem C6_score_swallows_errors :
    Score labelsABC (fun _ => (none : Option (List ℚ))) img224 = none ∧
    Score labelsABC (fun _ => some [(1:ℚ), 2]) img224 = none :=
  ⟨rfl, rfl⟩

/-- C7: contrary to the claim, Preprocess performs no dimension validation: on
a 100×100 image it happily produces a (1, 3, 100, 100) tensor (here with all
values 7/255) instead of a ShapeError, and when the session then rejects the
mis-shaped tensor, Score swallows the failure and returns None. -/
theorem C7_preprocess_no_shape_check :
    (∀ (b : Fin 1) (c : Fin 3) (y x : Fin 100),
        Preprocess img100 b c y x = ((7:ℕ) : ℚ) / 255) ∧
    Score labelsABC rejectRun img100 = none :=
  ⟨fun _ _ _ _ => rfl, rfl⟩

/-- C8: contrary to the claim, when k = 3 exceeds the vector length (vector
[1, 2]) or a selected index is beyond the label table (vector [1, 2, 3, 4]
against a one-line table), Postprocess returns None — the IndexError is caught
and logged, and no RankError or other error value reaches the caller. -/
theorem C8_postprocess_silent_none :
    Postprocess labelsABC [(1:ℚ), 2] = none ∧
    Postprocess ["0 a".toList] [(1:ℚ), 2, 3, 4] = none :=
  ⟨rfl, rfl⟩

/-- C3 (counterexample): Score divides raw scores by 100 without clamping, so
a raw model score of 200 yields the returned confidence 200/100 = 2, outside
[0, 1] — the claimed bound does not hold for every successful scoring. -/
theorem C3_counterexample :
    Score labelsABC run200 img224 =
      some [⟨"classification".toList, "a".toList, 200/100⟩,
            ⟨"classification".toList, "c".toList, 2/100⟩,
            ⟨"classification".toList, "b".toList, 1/100⟩] ∧
    ¬((200:ℚ)/100 ≤ 1) :=
  ⟨rfl, by norm_num⟩

/-- C3 (amended): whenever the session succeeds on the preprocessed input with
at least three scores and the label lookups resolve (so that Postprocess
succeeds), Score returns exactly 3 results, ordered by non-increasing
confidence, and each confidence is a raw model score divided by 100 — for
every such inference, whatever the raw scores (negative logits included).
Only the [0, 1] bound on the confidences is conditional: it holds provided
the raw scores lie in [0, 100], since the code performs no clamping. -/
theorem C3_score_shape {h w : ℕ} (labelList : List Label)
    (onnxRun : Tensor h w → Option (List ℚ)) (cvImage : Image h w)
    (p : List ℚ) (res : List DetectedObject)
    (hrun : onnxRun (Preprocess cvImage) = some p)
    (hpost : Postprocess labelList p = some res) :
    Score labelList onnxRun cvImage = some res ∧
    res.length = 3 ∧
    res.Chain' (fun a b => b.confidence ≤ a.confidence) ∧
    ((∀ q ∈ p, 0 ≤ q ∧ q ≤ 100) → ∀ r ∈ res, 0 ≤ r.confidence ∧ r.confidence ≤ 1) ∧
    (∀ k, k < 3 → ∃ c, c ∈ p ∧ ((np_sort p).reverse).get? k = some c ∧
      (res.get? k).map DetectedObject.confidence = some (c / 100)) := by
  obtain ⟨o0, o1, o2, h0, h1, h2, hres⟩ := Postprocess_eq_some hpost
  obtain ⟨c0, i0, ob0, n0, hc0, hi0, hob0, hn0, he0⟩ := mkDetected_eq_some h0
  obtain ⟨c1, i1, ob1, n1, hc1, hi1, hob1, hn1, he1⟩ := mkDetected_eq_some h1
  obtain ⟨c2, i2, ob2, n2, hc2, hi2, hob2, hn2, he2⟩ := mkDetected_eq_some h2
  have hscore : Score labelList onnxRun cvImage = some res := by
    show (onnxRun (Preprocess cvImage)).bind
      (fun probabilities => Postprocess labelList probabilities) = some res
    rw [hrun]
    exact hpost
  have hmem : ∀ {k : ℕ} {c : ℚ}, ((np_sort p).reverse).get? k = some c → c ∈ p := by
    intro k c hk
    exact (sorted_prob_perm p).mem_iff.mp (List.get?_mem hk)
  have hconf : ∀ (hbound : ∀ q ∈ p, 0 ≤ q ∧ q ≤ 100) {c : ℚ},
      c ∈ p → 0 ≤ c / 100 ∧ c / 100 ≤ 1 := by
    intro hbound c hc
    obtain ⟨hc0', hc100⟩ := hbound c hc
    constructor
    · positivity
    · rw [div_le_one (by norm_num)]
      linarith
  have h01 : c1 ≤ c0 :=
    get?_le_of_pairwise_ge (pairwise_ge_sorted_prob p) (by norm_num) hc0 hc1
  have h12 : c2 ≤ c1 :=
    get?_le_of_pairwise_ge (pairwise_ge_sorted_prob p) (by norm_num) hc1 hc2
  subst hres he0 he1 he2
  refine ⟨hscore, rfl, ?_, ?_, ?_⟩
  · exact List.chain'_cons.mpr ⟨(div_le_div_right (by norm_num)).mpr h01,
      List.chain'_cons.mpr ⟨(div_le_div_right (by norm_num)).mpr h12,
        List.chain'_singleton _⟩⟩
  · intro hbound r hr
    simp only [List.mem_cons, List.not_mem_nil, or_false] at hr
    rcases hr with h | h | h <;> subst h
    · exact hconf hbound (hmem hc0)
    · exact hconf hbound (hmem hc1)
    · exact hconf hbound (hmem hc2)
  · intro k hk
    interval_cases k
    · exact ⟨c0, hmem hc0, hc0, rfl⟩
    · exact ⟨c1, hmem hc1, hc1, rfl⟩
    · exact ⟨c2, hmem hc2, hc2, rfl⟩

/-- The result list Score produces on the stub session `run3`. -/
def resW : List DetectedObject :=
  [⟨"classification".toList, "b".toList, 50/100⟩,
   ⟨"classification".toList, "c".toList, 40/100⟩,
   ⟨"classification".toList, "a".toList, 10/100⟩]

/-- C3 (witness): the amended statement evaluated on a session stub returning
the raw scores [10, 50, 40] (all on the 0–100 scale) against a three-line
label table: Score returns the three results b, c, a with confidences
0.5, 0.4, 0.1. -/
theorem C3_witness :
    Score labelsABC run3 img224 = some resW ∧
    resW.length = 3 ∧
    resW.Chain' (fun a b => b.confidence ≤ a.confidence) ∧
    ((∀ q ∈ [(10:ℚ), 50, 40], 0 ≤ q ∧ q ≤ 100) →
      ∀ r ∈ resW, 0 ≤ r.confidence ∧ r.confidence ≤ 1) ∧
    (∀ k, k < 3 → ∃ c, c ∈ [(10:ℚ), 50, 40] ∧
      ((np_sort [(10:ℚ), 50, 40]).reverse).get? k = some c ∧
      (resW.get? k).map DetectedObject.confidence = some (c / 100)) :=
  C3_score_shape labelsABC run3 img224 [10, 50, 40] resW rfl rfl

/-- The lookups of one loop iteration of Postprocess align: the value read
from the reversed sorted list at position k is the probability stored at the
index read from the reversed argsort at position k. -/
theorem mkDetected_aligned {labelList : List Label} {p : List ℚ} {k : ℕ}
    {o : DetectedObject}
    (h : mkDetected labelList ((np_sort p).reverse) ((np_argsort p).reverse) k = some o) :
    ∃ j c, (np_argsort p).reverse.get? k = some j ∧ p.get? j = some c ∧
      ((np_sort p).reverse).get? k = some c ∧ o.confidence = c / 100 := by
  obtain ⟨c, idx, obj, name, hc, hidx, hobj, hname, he⟩ := mkDetected_eq_some h
  obtain ⟨c', hc', hsp⟩ := argsort_sort_aligned p k hidx
  have hcc : c' = c := Option.some_inj.mp (hsp.symm.trans hc)
  subst hcc
  exact ⟨idx, c', hidx, hc', hsp, by rw [he]⟩

/-- C10: although Postprocess sorts the values and the indices by two separate
calls (sort and argsort), the pairing is consistent: for each returned result
k, the returned confidence is the probability stored at the index selected at
rank k, divided by 100 (sorted_prob[k] = probabilities[sorted_indices[k]]). -/
theorem C10_confidence_index_aligned (labelList : List Label) (p : List ℚ)
    (res : List DetectedObject) (hpost : Postprocess labelList p = some res)
    (k : ℕ) (hk : k < 3) :
    ∃ j c, (np_argsort p).reverse.get? k = some j ∧ p.get? j = some c ∧
      ((np_sort p).reverse).get? k = some c ∧
      (res.get? k).map DetectedObject.confidence = some (c / 100) := by
  obtain ⟨o0, o1, o2, h0, h1, h2, hres⟩ := Postprocess_eq_some hpost
  subst hres
  interval_cases k
  · obtain ⟨j, c, hj, hc, hsp, hconf⟩ := mkDetected_aligned h0
    exact ⟨j, c, hj, hc, hsp, by simp [hconf]⟩
  · obtain ⟨j, c, hj, hc, hsp, hconf⟩ := mkDetected_aligned h1
    exact ⟨j, c, hj, hc, hsp, by simp [hconf]⟩
  · obtain ⟨j, c, hj, hc, hsp, hconf⟩ := mkDetected_aligned h2
    exact ⟨j, c, hj, hc, hsp, by simp [hconf]⟩

/-- C10 (witness): the alignment at the concrete vector [7, 3, 9] with a
three-line label table, at rank 0: the selected index is 2, the stored
probability there is 9, and the returned confidence is 9/100. -/
theorem C10_witness :
    ∃ j c, (np_argsort [(7:ℚ), 3, 9]).reverse.get? 0 = some j ∧
      [(7:ℚ), 3, 9].get? j = some c ∧
      ((np_sort [(7:ℚ), 3, 9]).reverse).get? 0 = some c ∧
      (([⟨"classification".toList, "c".toList, 9/100⟩,
         ⟨"classification".toList, "a".toList, 7/100⟩,
         ⟨"classification".toList, "b".toList, 3/100⟩] :
        List DetectedObject).get? 0).map DetectedObject.confidence = some (c / 100) :=
  C10_confidence_index_aligned labelsABC [(7:ℚ), 3, 9]
    [⟨"classification".toList, "c".toList, 9/100⟩,
     ⟨"classification".toList, "a".toList, 7/100⟩,
     ⟨"classification".toList, "b".toList, 3/100⟩] rfl 0 (by norm_num)

end ScorePy
